import Mathlib

/-!
Verification of the directory-size scanning core of the windows-disk-tool
repository (scanner_engine.py, fast_scanner_win.py, scan_cache.py,
disk_detector.py, disk_scanner.py).

The filesystem is modelled as a finite graph of directory identities
(`(st_dev, st_ino)` pairs are collapsed to a single `Nat` id): entry `i` of
`FileSystem.dirents` is the listing of the directory with identity `i`
(`none` models an `os.scandir` that raises `OSError`/`PermissionError`).
Directory entries are regular files with a size, or subdirectories given by
their identity; `entry.stat` is modelled as always succeeding, and symbolic
links / junctions are represented directly by the graph structure: two
entries naming the same identity model two paths resolving to one directory.

`ScannerEngine.get_folder_size_parallel` is embedded as `get_folder_size_parallel`,
a fueled sequentialisation of the thread-pool recursion: child futures are
submitted and awaited one at a time, which realises one legal schedule of the
pool.  The cooperative stop flag (`threading.Event`) is modelled as an oracle
`stopAt : Nat → Bool` consulted at each `stop_flag.is_set()` call, indexed by
a per-scan counter (`ScanState.clock`).  The persistent folder cache is
modelled by the initial lookup table `cache0` (the result of
`ScanCache.get_folder_cache` for rows present before the scan) plus the list
of `set_folder_cache` writes performed during the scan, newest first
(`INSERT OR REPLACE` means the newest row wins).
-/

namespace WinDiskTool

/-- One entry of a directory listing, as classified by the engine's
`entry.stat(follow_symlinks=...)` calls: a regular file with its `st_size`,
or a subdirectory with its `(st_dev, st_ino)` identity. -/
inductive FSEntry where
  | file (size : Nat)
  | dir (id : Nat)
deriving DecidableEq, Repr

/-- A finite filesystem: `dirents[i]` is the listing of directory identity `i`
(`none` when `os.scandir` raises for that directory). -/
structure FileSystem where
  dirents : List (Option (List FSEntry))
deriving DecidableEq, Repr

/-- Number of directory identities in the model. -/
def FileSystem.n (fs : FileSystem) : Nat := fs.dirents.length

/-- The raw listing of directory `i` (`none` = `os.scandir` raises). -/
def FileSystem.listing (fs : FileSystem) (i : Nat) : Option (List FSEntry) :=
  fs.dirents.getD i none

/-- The entries of directory `i`, empty when the listing fails. -/
def FileSystem.entries (fs : FileSystem) (i : Nat) : List FSEntry :=
  (fs.listing i).getD []

/-- An entry is well formed when any subdirectory identity it names exists. -/
def FSEntry.wfb (n : Nat) : FSEntry → Bool
  | .file _ => true
  | .dir d => decide (d < n)

/-- Well-formedness of a filesystem: every directory entry points inside the
model.  Stated on the raw `dirents` list so that it is decidable on concrete
filesystems. -/
def FileSystem.WF (fs : FileSystem) : Prop :=
  (fs.dirents.all fun l => (l.getD []).all (FSEntry.wfb fs.n)) = true

/-- The sizes of the regular files of a listing, summed in listing order
(this is the `S_ISREG` branch of the engine's first pass). -/
def fileEntrySum : List FSEntry → Nat
  | [] => 0
  | .file s :: rest => s + fileEntrySum rest
  | .dir _ :: rest => fileEntrySum rest

/-- The subdirectory identities of a listing, in listing order
(this is the `S_ISDIR` branch of the engine's first pass). -/
def dirEntryIds : List FSEntry → List Nat
  | [] => []
  | .file _ :: rest => dirEntryIds rest
  | .dir d :: rest => d :: dirEntryIds rest

/-- The subdirectory identities of directory `i`. -/
def childIds (fs : FileSystem) (i : Nat) : List Nat :=
  dirEntryIds (fs.entries i)

/-- Sum of the sizes of the regular files directly inside directory `i`. -/
def dirFileSum (fs : FileSystem) (i : Nat) : Nat :=
  fileEntrySum (fs.entries i)

/-- The child-edge relation of the directory graph: `b` is listed as a
subdirectory of `a`. -/
def FileSystem.Step (fs : FileSystem) (a b : Nat) : Prop := b ∈ childIds fs a

/-- `b` is reachable from `a` by following directory entries. -/
def Reaches (fs : FileSystem) (a b : Nat) : Prop :=
  Relation.ReflTransGen fs.Step a b

/-! ### Native enumeration accelerator (fast_scanner_win.py) -/

/-- One pass of `_scan_recursive`'s `FindNextFileW` loop: `g` scans a
subdirectory with the remaining depth budget.  File sizes are taken from the
find data; the `scanned_inodes` argument of `scan_folder_win` is *unused* in
the source, so it does not appear here. -/
def scanWinList (g : Nat → Nat) : List FSEntry → Nat
  | [] => 0
  | .file s :: rest => s + scanWinList g rest
  | .dir d :: rest => g d + scanWinList g rest

/-- `_scan_recursive(path, max_depth, current_depth, ...)`, with
`budget = max_depth - current_depth`: it returns 0 (without listing) as soon
as `current_depth >= max_depth`, and otherwise lists once and recurses with
the budget decreased. -/
def scanWinRec (fs : FileSystem) : Nat → Nat → Nat
  | 0, _ => 0
  | b + 1, id => scanWinList (scanWinRec fs b) (fs.entries id)

/-- `scan_folder_win(path, max_depth, scanned_inodes)['size']`: the total size
computed by the Windows-API scanner.  `scanned_inodes` is ignored by the
source implementation. -/
def scan_folder_win (fs : FileSystem) (maxDepth : Nat) (id : Nat) : Nat :=
  scanWinRec fs maxDepth id

/-! ### Scanner engine (scanner_engine.py) -/

/-- The engine-level context of one `ScannerEngine`: the filesystem, whether
the `fast_scanner_win` import succeeded (`HAS_WIN_SCANNER`), the stop-flag
oracle (the value returned by the `t`-th `stop_flag.is_set()` call of the
scan), and the pre-existing folder-cache contents as seen through
`ScanCache.get_folder_cache`. -/
structure ScanCtx where
  fs : FileSystem
  hasWin : Bool
  stopAt : Nat → Bool
  cache0 : Nat → Option Nat

/-- The mutable state threaded through one scan: `scanned_inodes`, the
`skipped_loops` counter of `scan_stats`, the `set_folder_cache` writes
performed so far (newest first), and the stop-flag check counter. -/
structure ScanState where
  visited : Finset Nat
  skipped : Nat
  writes : List (Nat × Nat)
  clock : Nat

/-- The state of a fresh engine at the start of a scan: empty visited set,
zeroed statistics, no cache writes. -/
def initState : ScanState := ⟨∅, 0, [], 0⟩

/-- Advance the stop-flag check counter by one. -/
def tick (st : ScanState) : ScanState := { st with clock := st.clock + 1 }

/-- `ScanCache.get_folder_cache(path)` as seen mid-scan: the newest
`set_folder_cache` write for this path wins (`INSERT OR REPLACE`), otherwise
the pre-existing row (already filtered by expiry and mtime) is served. -/
def cacheGet (ctx : ScanCtx) (st : ScanState) (id : Nat) : Option Nat :=
  match st.writes.lookup id with
  | some s => some s
  | none => ctx.cache0 id

/-- The engine's first pass over `list(os.scandir(path))`: the stop flag is
checked before each entry (breaking out of the loop when set), regular files
are added to the running total, subdirectories are collected in order. -/
def entriesPhase (ctx : ScanCtx) : List FSEntry → Nat → List Nat → ScanState →
    Nat × List Nat × ScanState
  | [], tot, subs, st => (tot, subs, st)
  | e :: rest, tot, subs, st =>
    if ctx.stopAt st.clock then (tot, subs, tick st)
    else
      match e with
      | .file s => entriesPhase ctx rest (tot + s) subs (tick st)
      | .dir d => entriesPhase ctx rest tot (subs ++ [d]) (tick st)

/-- The engine's `as_completed` loop over the submitted child futures,
sequentialised: before consuming each child, the stop flag is checked
(breaking and discarding the remaining children when set); `f` performs the
recursive `get_folder_size_parallel` call for one child. -/
def scanChildrenWith (ctx : ScanCtx) (f : Nat → ScanState → Nat × ScanState) :
    List Nat → Nat → ScanState → Nat × ScanState
  | [], tot, st => (tot, st)
  | d :: rest, tot, st =>
    if ctx.stopAt st.clock then (tot, tick st)
    else scanChildrenWith ctx f rest (tot + (f d (tick st)).1) (f d (tick st)).2

/-- `if total_size > 0 and use_cache and self.cache: set_folder_cache(...)`:
the conditional cache write the engine performs on a computed total (both the
Windows-API branch and the generic branch guard the write this way). -/
def cacheWriteStep (uc : Bool) (id : Nat) (res : Nat × ScanState) : Nat × ScanState :=
  (res.1, if uc = true ∧ 0 < res.1 then
            { res.2 with writes := (id, res.1) :: res.2.writes } else res.2)

/-- The body of the generic branch once `os.scandir` has produced a listing:
first pass over the entries; then, if subdirectories were collected and the
stop flag (checked by the short-circuiting `if subdirs and not
self.stop_flag.is_set()`) is clear, the sequentialised fan-out over the
subdirectories via `recurse`. -/
def listedPhase (ctx : ScanCtx) (recurse : Nat → ScanState → Nat × ScanState)
    (es : List FSEntry) (st2 : ScanState) : Nat × ScanState :=
  let r := entriesPhase ctx es 0 [] st2
  if r.2.1.isEmpty then (r.1, r.2.2)
  else if ctx.stopAt r.2.2.clock then (r.1, tick r.2.2)
  else scanChildrenWith ctx recurse r.2.1 r.1 (tick r.2.2)

/-- `ScannerEngine.get_folder_size_parallel(path, max_depth, use_cache,
follow_symlinks)`, sequentialised and fueled (the fuel only has to dominate
the recursion depth; the cycle check makes the real recursion finite).
Control flow, in source order: stop flag; `max_depth < 0`; incremental cache
lookup; Windows-API fast path when available and `max_depth <= 5` (its result
is cached when positive); inode cycle check (skip and count a loop, or mark
visited); `os.scandir` (an `OSError` aborts the body with total 0, after the
inode was already marked); first pass over entries; guarded parallel second
pass over subdirectories with `max_depth - 1`; unconditional cache write of
any positive total.  Returns the total and the final engine state. -/
def get_folder_size_parallel (ctx : ScanCtx) :
    Nat → Nat → Option Int → Bool → Bool → ScanState → Nat × ScanState
  | 0, _, _, _, _, st => (0, st)
  | fuel + 1, id, md, uc, fl, st =>
    if ctx.stopAt st.clock then (0, tick st)
    else if md.elim false (fun d => decide (d < 0)) then (0, tick st)
    else
      match (if uc then cacheGet ctx (tick st) id else none) with
      | some cached => (cached, tick st)
      | none =>
        if ctx.hasWin && md.elim false (fun d => decide (d ≤ 5)) then
          cacheWriteStep uc id
            (scan_folder_win ctx.fs (md.getD 0).toNat id, tick st)
        else if fl = true ∧ id ∈ (tick st).visited then
          (0, { tick st with skipped := (tick st).skipped + 1 })
        else
          let st2 := if fl then
              { tick st with visited := insert id (tick st).visited } else tick st
          match ctx.fs.listing id with
          | none => (0, st2)
          | some es =>
            cacheWriteStep uc id
              (listedPhase ctx
                (fun d s => get_folder_size_parallel ctx fuel d
                  (md.map (fun x => x - 1)) uc fl s) es st2)

/-! ### A pure view of the generic recursive path

With caching off, the stop flag never set, link following on and the fast
path not taken (`max_depth = None`), the engine is an ordinary depth-first
traversal with a visited set.  `dfs` is that traversal; the bridge lemma
below ties it to `get_folder_size_parallel`. -/

/-- The child loop of `dfs`: scan each subdirectory in order, threading the
visited set and the loop counter, accumulating sizes. -/
def dfsListWith (f : Nat → Finset Nat → Nat → Nat × Finset Nat × Nat) :
    List Nat → Nat → Finset Nat → Nat → Nat × Finset Nat × Nat
  | [], acc, vis, sk => (acc, vis, sk)
  | c :: rest, acc, vis, sk =>
    dfsListWith f rest (acc + (f c vis sk).1) (f c vis sk).2.1 (f c vis sk).2.2

/-- Depth-first traversal with a visited set: revisiting an identity counts a
skipped loop and contributes 0; otherwise the identity is marked, its direct
files summed, and its subdirectories scanned in order. -/
def dfs (fs : FileSystem) : Nat → Nat → Finset Nat → Nat → Nat × Finset Nat × Nat
  | 0, _, vis, sk => (0, vis, sk)
  | fuel + 1, id, vis, sk =>
    if id ∈ vis then (0, vis, sk + 1)
    else
      dfsListWith (fun c v s => dfs fs fuel c v s)
        (childIds fs id) (dirFileSum fs id) (insert id vis) sk

/-! ### Drive analysis arithmetic (disk_scanner.py, scanner_engine.py) -/

/-- The `(scanned_total, other_size)` pair computed by
`DiskScanner.get_drive_analysis`: `scanned_total` sums the root folder sizes
plus the directly summed root files, and
`other_size = max(0, usage.used - scanned_total)`. -/
def drive_analysis_totals (used : Int) (folderSizes : List Int)
    (rootFilesSize : Int) : Int × Int :=
  let scannedTotal := folderSizes.sum + rootFilesSize
  (scannedTotal, max 0 (used - scannedTotal))

/-- The `(scanned_total, other_size)` pair computed by
`ScannerEngine.get_drive_quick_analysis`: `scanned_total` sums the scanned
folder sizes and `other_size = max(0, usage.used - scanned_total)`. -/
def quick_analysis_totals (used : Int) (folderSizes : List Int) : Int × Int :=
  let scannedTotal := folderSizes.sum
  (scannedTotal, max 0 (used - scannedTotal))

/-! ### Movability flags (scanner_engine.py line 320, disk_scanner.py line 216) -/

/-- The `movable` flag attached to each root folder record by
`get_drive_quick_analysis`: not a system folder and larger than 1 MiB. -/
def quick_movable (is_system : Bool) (size : Nat) : Bool :=
  !is_system && decide (1 * 1024 * 1024 < size)

/-- The `movable` flag attached to each on-demand subfolder record by
`scan_one_folder` in `DiskScanner.get_drive_analysis`: larger than 1 MiB. -/
def subfolder_movable (sub_size : Nat) : Bool :=
  decide (1 * 1024 * 1024 < sub_size)

/-! ### Worker-count policy (disk_detector.py) -/

/-- The medium classes produced by `DiskDetector.get_disk_type`. -/
inductive DiskType where
  | nvme | ssd | hdd | network | unknown
deriving DecidableEq, Repr

/-- `DiskDetector.get_optimal_workers`, as a function of the already-computed
disk type and the CPU count. -/
def get_optimal_workers : DiskType → Nat → Nat
  | .nvme, cpu => min (cpu * 4) 32
  | .ssd, cpu => min (cpu * 2) 16
  | .hdd, _ => 2
  | .network, _ => 1
  | .unknown, cpu => min (cpu * 2) 8

/-! ### Folder cache reads (scan_cache.py) -/

/-- One row of the `folder_cache` table. -/
structure FolderRow where
  size : Nat
  mtime : Int
  cache_time : Int
deriving DecidableEq, Repr

/-- `ScanCache._get_folder_mtime`: the current modification time of the path,
or 0 when `os.path.getmtime` raises (vanished path or permission error). -/
def folder_mtime_read (current : Option Int) : Int := current.getD 0

/-- `ScanCache.get_folder_cache(path)`: absent when no row exists, when the
row's age exceeds the expiry window, or when the current modification time
(0 on a failed read) is newer than the recorded one; otherwise the recorded
`(size, mtime)` pair. -/
def get_folder_cache (row : Option FolderRow) (now expireSeconds : Int)
    (currentMtime : Option Int) : Option (Nat × Int) :=
  match row with
  | none => none
  | some r =>
    if now - r.cache_time > expireSeconds then none
    else if folder_mtime_read currentMtime > r.mtime then none
    else some (r.size, r.mtime)

/-! ### Basic lemmas about the engine's loops -/

/-- The first pass only advances the check counter: visited set, loop counter
and cache writes are untouched. -/
theorem entriesPhase_state (ctx : ScanCtx) :
    ∀ (es : List FSEntry) (tot : Nat) (subs : List Nat) (st : ScanState),
      (entriesPhase ctx es tot subs st).2.2.visited = st.visited ∧
      (entriesPhase ctx es tot subs st).2.2.skipped = st.skipped ∧
      (entriesPhase ctx es tot subs st).2.2.writes = st.writes := by
  intro es
  induction es with
  | nil => intro tot subs st; simp [entriesPhase]
  | cons e rest ih =>
    intro tot subs st
    by_cases h : ctx.stopAt st.clock
    · simp [entriesPhase, h, tick]
    · cases e with
      | file s => simpa [entriesPhase, h, tick] using ih (tot + s) subs (tick st)
      | dir d => simpa [entriesPhase, h, tick] using ih tot (subs ++ [d]) (tick st)

/-- With the stop flag never set, the first pass computes the file sum and
subdirectory list of the listing, advancing the clock once per entry. -/
theorem entriesPhase_noStop (ctx : ScanCtx) (hstop : ∀ t, ctx.stopAt t = false) :
    ∀ (es : List FSEntry) (tot : Nat) (subs : List Nat) (st : ScanState),
      entriesPhase ctx es tot subs st
        = (tot + fileEntrySum es, subs ++ dirEntryIds es,
           { st with clock := st.clock + es.length }) := by
  intro es
  induction es with
  | nil => intro tot subs st; simp [entriesPhase, fileEntrySum, dirEntryIds]
  | cons e rest ih =>
    intro tot subs st
    cases e with
    | file s =>
      rw [entriesPhase, hstop]
      simp only [fileEntrySum, dirEntryIds, List.length_cons]
      rw [ih (tot + s) subs (tick st)]
      simp [tick, ScanState.mk.injEq]
      omega
    | dir d =>
      rw [entriesPhase, hstop]
      simp only [fileEntrySum, dirEntryIds, List.length_cons]
      rw [ih tot (subs ++ [d]) (tick st)]
      simp [tick, ScanState.mk.injEq]
      omega

/-- A call with a negative depth bound returns 0 at once; only the stop-flag
check counter advances (the stop branch and the depth branch return the same
state, so no hypothesis on the flag is needed). -/
theorem neg_depth_immediate (ctx : ScanCtx) (fuel id : Nat) (d : Int)
    (hd : d < 0) (uc fl : Bool) (st : ScanState) :
    get_folder_size_parallel ctx (fuel + 1) id (some d) uc fl st = (0, tick st) := by
  by_cases h : ctx.stopAt st.clock <;>
    simp [get_folder_size_parallel, h, Option.elim, hd]

/-- Any cache write present after the child loop was either present before it
or was produced, with the same guarantee `P`, by one of the child calls. -/
theorem scanChildrenWith_writes (ctx : ScanCtx)
    (f : Nat → ScanState → Nat × ScanState)
    (hf : ∀ d st p s, (p, s) ∈ (f d st).2.writes → (p, s) ∈ st.writes ∨ 0 < s) :
    ∀ (subs : List Nat) (tot : Nat) (st : ScanState) (p s : Nat),
      (p, s) ∈ (scanChildrenWith ctx f subs tot st).2.writes →
      (p, s) ∈ st.writes ∨ 0 < s := by
  intro subs
  induction subs with
  | nil => intro tot st p s h; simp [scanChildrenWith] at h; exact Or.inl h
  | cons d rest ih =>
    intro tot st p s h
    by_cases hc : ctx.stopAt st.clock
    · simp [scanChildrenWith, hc, tick] at h; exact Or.inl h
    · simp only [scanChildrenWith, hc, if_neg, Bool.false_eq_true, ite_false] at h
      rcases ih _ _ _ _ h with h2 | h2
      · rcases hf d (tick st) p s h2 with h3 | h3
        · exact Or.inl h3
        · exact Or.inr h3
      · exact Or.inr h2

/-- The conditional cache write only ever adds a record with the (positive)
computed total. -/
theorem cacheWriteStep_writes (uc : Bool) (id : Nat) (res : Nat × ScanState)
    (p s : Nat) (h : (p, s) ∈ (cacheWriteStep uc id res).2.writes) :
    (p, s) ∈ res.2.writes ∨ 0 < s := by
  by_cases hg : uc = true ∧ 0 < res.1
  · simp only [cacheWriteStep, hg, and_self, if_true] at h
    rcases List.mem_cons.mp h with h1 | h1
    · right; rw [Prod.mk.injEq] at h1; omega
    · exact Or.inl h1
  · simp only [cacheWriteStep, hg, if_false] at h
    exact Or.inl h

/-- Writes surviving the listed phase were present before it or satisfy the
per-child guarantee. -/
theorem listedPhase_writes (ctx : ScanCtx)
    (recurse : Nat → ScanState → Nat × ScanState)
    (hf : ∀ d st p s, (p, s) ∈ (recurse d st).2.writes → (p, s) ∈ st.writes ∨ 0 < s)
    (es : List FSEntry) (st2 : ScanState) (p s : Nat)
    (h : (p, s) ∈ (listedPhase ctx recurse es st2).2.writes) :
    (p, s) ∈ st2.writes ∨ 0 < s := by
  have hwr := (entriesPhase_state ctx es 0 [] st2).2.2
  unfold listedPhase at h
  by_cases h5 : (entriesPhase ctx es 0 [] st2).2.1.isEmpty
  · simp only [h5, if_true] at h; rw [hwr] at h; exact Or.inl h
  · simp only [h5, Bool.false_eq_true, if_false] at h
    by_cases h6 : ctx.stopAt (entriesPhase ctx es 0 [] st2).2.2.clock
    · simp only [h6, if_true, tick] at h; rw [hwr] at h; exact Or.inl h
    · simp only [h6, Bool.false_eq_true, if_false] at h
      rcases scanChildrenWith_writes ctx recurse hf _ _ _ p s h with h7 | h7
      · rw [show (tick (entriesPhase ctx es 0 [] st2).2.2).writes
            = (entriesPhase ctx es 0 [] st2).2.2.writes from rfl, hwr] at h7
        exact Or.inl h7
      · exact Or.inr h7

/-- Invariant of the engine: every record ever handed to `set_folder_cache`
has a strictly positive size (both write sites are guarded by
`total_size > 0`). -/
theorem scan_writes_positive (ctx : ScanCtx) :
    ∀ (fuel id : Nat) (md : Option Int) (uc fl : Bool) (st : ScanState) (p s : Nat),
      (p, s) ∈ (get_folder_size_parallel ctx fuel id md uc fl st).2.writes →
      (p, s) ∈ st.writes ∨ 0 < s := by
  intro fuel
  induction fuel with
  | zero => intro id md uc fl st p s h; simp [get_folder_size_parallel] at h; exact Or.inl h
  | succ f ih =>
    intro id md uc fl st p s h
    simp only [get_folder_size_parallel] at h
    by_cases h1 : ctx.stopAt st.clock
    · simp [h1, tick] at h; exact Or.inl h
    · simp only [h1, Bool.false_eq_true, if_false] at h
      by_cases h2 : md.elim false (fun d => decide (d < 0)) = true
      · simp [h2, tick] at h; exact Or.inl h
      · simp only [h2, Bool.false_eq_true, if_false] at h
        rcases hcache : (if uc then cacheGet ctx (tick st) id else none) with _ | cached
        · rw [hcache] at h
          simp only at h
          by_cases h3 : (ctx.hasWin && md.elim false fun d => decide (d ≤ 5)) = true
          · simp only [h3, if_true] at h
            rcases cacheWriteStep_writes _ _ _ _ _ h with h4 | h4
            · simp only [tick] at h4; exact Or.inl h4
            · exact Or.inr h4
          · simp only [h3, Bool.false_eq_true, if_false] at h
            by_cases h4 : fl = true ∧ id ∈ (tick st).visited
            · simp only [h4, and_self, if_true] at h
              simp only [tick] at h; exact Or.inl h
            · simp only [h4, if_false] at h
              rcases hlist : ctx.fs.listing id with _ | es
              · rw [hlist] at h
                by_cases h5 : fl <;> simp [h5, tick] at h <;> exact Or.inl h
              · rw [hlist] at h
                simp only at h
                rcases cacheWriteStep_writes _ _ _ _ _ h with h6 | h6
                · rcases listedPhase_writes ctx _
                    (fun d stx px sx hx => ih d (md.map fun x => x - 1) uc fl stx px sx hx)
                    es _ p s h6 with h7 | h7
                  · left
                    by_cases h5 : fl <;> simpa [h5, tick] using h7
                  · exact Or.inr h7
                · exact Or.inr h6
        · rw [hcache] at h
          simp only at h
          exact Or.inl h

/-- The entries of a directory whose listing succeeded. -/
theorem entries_eq_of_listing {fs : FileSystem} {id : Nat} {es : List FSEntry}
    (h : fs.listing id = some es) : fs.entries id = es := by
  simp [FileSystem.entries, h]

/-- Children submitted with a negative depth bound all return 0 immediately:
the loop only advances the check counter (two flag reads per child). -/
theorem scanChildren_negdepth (ctx : ScanCtx) (hstop : ∀ t, ctx.stopAt t = false)
    (f : Nat) (e : Int) (he : e < 0) (uc fl : Bool) :
    ∀ (subs : List Nat) (tot : Nat) (st : ScanState),
      scanChildrenWith ctx
        (fun d s => get_folder_size_parallel ctx (f + 1) d (some e) uc fl s)
        subs tot st
        = (tot, { st with clock := st.clock + 2 * subs.length }) := by
  intro subs
  induction subs with
  | nil => intro tot st; simp [scanChildrenWith]
  | cons d rest ih =>
    intro tot st
    rw [scanChildrenWith, hstop]
    simp only [Bool.false_eq_true, if_false]
    rw [neg_depth_immediate ctx f d e he uc fl (tick st)]
    simp only [Nat.add_zero]
    rw [ih tot (tick (tick st))]
    simp [tick, ScanState.mk.injEq, List.length_cons]
    omega

/-! ### Example filesystems and contexts used by concrete runs -/

/-- A root directory holding two plain files of 5 and 7 bytes. -/
def fsTwoFiles : FileSystem := ⟨[some [.file 5, .file 7]]⟩

/-- A root directory holding one plain file of 5 bytes. -/
def fsOneFile : FileSystem := ⟨[some [.file 5]]⟩

/-- A root directory with one subdirectory that holds a 7-byte file. -/
def fsDeep : FileSystem := ⟨[some [.dir 1], some [.file 7]]⟩

/-- A root directory with two links resolving to the same subdirectory (the
same `(st_dev, st_ino)` identity listed twice), holding a 4-byte file. -/
def fsShared : FileSystem := ⟨[some [.dir 1, .dir 1], some [.file 4]]⟩

/-- An engine on `fs` whose accelerator import failed, whose stop flag is
never set and whose persistent cache is empty. -/
def noStopCtxOf (fs : FileSystem) : ScanCtx :=
  ⟨fs, false, fun _ => false, fun _ => none⟩

/-- An engine on `fsTwoFiles` whose stop flag becomes set from the third
`is_set()` check onwards: the scan observes it while iterating the entries
of the root directory. -/
def stopMidCtx : ScanCtx := ⟨fsTwoFiles, false, fun t => decide (2 ≤ t), fun _ => none⟩

/-- An engine whose stop flag is set before the scan starts. -/
def stopNowCtx : ScanCtx := ⟨fsTwoFiles, false, fun _ => true, fun _ => none⟩

/-- An engine on `fsOneFile` with the Windows accelerator available. -/
def winCtx : ScanCtx := ⟨fsOneFile, true, fun _ => false, fun _ => none⟩

/-! ### Claims -/

/-- Claim C3, counterexample.  The stop flag is observed during entry
processing (third `is_set()` check, after the 5-byte file was counted but
before the 7-byte file), yet `set_folder_cache` is still called: the code has
no stop check before the cache write, so the partial total 5 is committed,
although the completed scan of the same directory totals 12. -/
theorem C3_counterexample_partial_total_cached_after_stop :
    (get_folder_size_parallel stopMidCtx 2 0 none true true initState).2.writes
      = [(0, 5)]
    ∧ (get_folder_size_parallel (noStopCtxOf fsTwoFiles) 2 0 none true true
        initState).1 = 12 := by
  decide

/-- Claim C3, amended: only a stop flag observed at the *entry* check of a
directory prevents its cache write (the call returns 0 at once and leaves the
write log unchanged); a flag observed later, during entry processing or while
awaiting children, does not prevent the partial positive total from being
cached. -/
theorem C3_amended_stop_at_entry_blocks_cache_write
    (ctx : ScanCtx) (fuel id : Nat) (md : Option Int) (uc fl : Bool)
    (st : ScanState) (h : ctx.stopAt st.clock = true) :
    (get_folder_size_parallel ctx (fuel + 1) id md uc fl st).1 = 0 ∧
    (get_folder_size_parallel ctx (fuel + 1) id md uc fl st).2.writes = st.writes := by
  simp [get_folder_size_parallel, h, tick]

/-- Witness for the amended C3 at a concrete input. -/
theorem C3_amended_stop_at_entry_blocks_cache_write_witness :
    stopNowCtx.stopAt initState.clock = true ∧
    ((get_folder_size_parallel stopNowCtx 1 0 none true true initState).1 = 0 ∧
     (get_folder_size_parallel stopNowCtx 1 0 none true true initState).2.writes
       = initState.writes) :=
  ⟨by decide,
   C3_amended_stop_at_entry_blocks_cache_write stopNowCtx 0 0 none true true
     initState (by decide)⟩

/-- Claim C4, counterexample.  When the scan attributes more bytes than the
volume reports as used (double counting through links, or logical sizes
exceeding the allocation figure), `other_size` clamps at 0 and
`scanned_total + other_size` exceeds `used_size`: with `used = 10` and a
single scanned folder of size 15, the sum is 15, not 10. -/
theorem C4_counterexample_sum_exceeds_used :
    (drive_analysis_totals 10 [15] 0).1 + (drive_analysis_totals 10 [15] 0).2
      ≠ 10 := by
  decide

/-- Claim C4, amended: in both analyses `other_size = max(0, used -
scanned_total)` holds by construction, and `scanned_total + other_size =
used_size` holds exactly when `scanned_total ≤ used_size` (when the scan
attributes more than the used figure, `other_size` is 0 and the sum exceeds
`used_size`). -/
theorem C4_amended_other_size_accounting (used : Int) (folderSizes : List Int)
    (rootFilesSize : Int) :
    ((drive_analysis_totals used folderSizes rootFilesSize).2
        = max 0 (used - (drive_analysis_totals used folderSizes rootFilesSize).1)
      ∧ ((drive_analysis_totals used folderSizes rootFilesSize).1
            + (drive_analysis_totals used folderSizes rootFilesSize).2 = used
          ↔ (drive_analysis_totals used folderSizes rootFilesSize).1 ≤ used))
    ∧ ((quick_analysis_totals used folderSizes).2
        = max 0 (used - (quick_analysis_totals used folderSizes).1)
      ∧ ((quick_analysis_totals used folderSizes).1
            + (quick_analysis_totals used folderSizes).2 = used
          ↔ (quick_analysis_totals used folderSizes).1 ≤ used)) := by
  refine ⟨⟨?_, ?_⟩, ⟨?_, ?_⟩⟩ <;>
    simp only [drive_analysis_totals, quick_analysis_totals] <;> omega

/-- Claim C5, counterexample.  With the accelerator unavailable, `max_depth = 0`
is not rejected (only `max_depth < 0` is): the root directory is listed and
its direct regular files are summed, so the call returns 5, not 0. -/
theorem C5_counterexample_depth_zero_lists_without_accelerator :
    (get_folder_size_parallel (noStopCtxOf fsOneFile) 2 0 (some 0) false true
      initState).1 ≠ 0 := by
  decide

/-- Claim C5, amended.  (1) Any negative `max_depth` returns 0 at once,
touching nothing but the stop-check counter.  (2) `max_depth = 0` returns 0
without listing when the accelerator is available (and the cache is not
consulted): `_scan_recursive` stops before its first listing.  (3) Without the
accelerator, `max_depth = 0` lists the directory once and returns the sum of
its direct regular files. -/
theorem C5_amended_depth_guard :
    (∀ (ctx : ScanCtx) (fuel id : Nat) (d : Int) (uc fl : Bool) (st : ScanState),
        d < 0 →
        get_folder_size_parallel ctx (fuel + 1) id (some d) uc fl st = (0, tick st))
    ∧ (∀ (ctx : ScanCtx) (fuel id : Nat) (fl : Bool) (st : ScanState),
        ctx.hasWin = true →
        get_folder_size_parallel ctx (fuel + 1) id (some 0) false fl st
          = (0, tick st))
    ∧ (∀ (ctx : ScanCtx) (fuel id : Nat) (st : ScanState),
        ctx.hasWin = false → (∀ t, ctx.stopAt t = false) → id ∉ st.visited →
        (get_folder_size_parallel ctx (fuel + 2) id (some 0) false true st).1
          = dirFileSum ctx.fs id) := by
  refine ⟨fun ctx fuel id d uc fl st hd => neg_depth_immediate ctx fuel id d hd uc fl st,
          fun ctx fuel id fl st hwin => ?_, fun ctx fuel id st hwin hstop hvis => ?_⟩
  · by_cases h : ctx.stopAt st.clock <;>
      simp [get_folder_size_parallel, h, hwin, Option.elim, scan_folder_win,
        scanWinRec, cacheWriteStep]
  · rw [get_folder_size_parallel, hstop]
    simp only [Bool.false_eq_true, if_false, Option.elim]
    norm_num
    rw [hwin]
    simp only [Bool.false_and, Bool.false_eq_true, if_false]
    have hnot : ¬ (True ∧ id ∈ (tick st).visited) := by
      simp [tick, hvis]
    simp only [eq_self_iff_true, true_and, tick, hvis, if_false]
    rcases hlist : ctx.fs.listing id with _ | es
    · simp [dirFileSum, FileSystem.entries, hlist, fileEntrySum]
    · simp only
      rw [listedPhase, entriesPhase_noStop ctx hstop]
      simp only [List.nil_append, Nat.zero_add]
      have hent := entries_eq_of_listing hlist
      by_cases hde : (dirEntryIds es).isEmpty
      · simp [cacheWriteStep, hde, dirFileSum, hent]
      · simp only [hde, Bool.false_eq_true, if_false]
        rw [hstop]
        simp only [Bool.false_eq_true, if_false]
        rw [scanChildren_negdepth ctx hstop fuel (-1) (by norm_num) false true]
        simp [cacheWriteStep, dirFileSum, hent]

/-- Witness for the amended C5 at concrete inputs. -/
theorem C5_amended_depth_guard_witness :
    ((-1 : Int) < 0 ∧
      get_folder_size_parallel (noStopCtxOf fsOneFile) 1 0 (some (-1)) false true
        initState = (0, tick initState))
    ∧ (winCtx.hasWin = true ∧
      get_folder_size_parallel winCtx 1 0 (some 0) false true initState
        = (0, tick initState))
    ∧ ((noStopCtxOf fsOneFile).hasWin = false ∧
      (get_folder_size_parallel (noStopCtxOf fsOneFile) 2 0 (some 0) false true
        initState).1 = dirFileSum (noStopCtxOf fsOneFile).fs 0) :=
  ⟨⟨by decide, C5_amended_depth_guard.1 (noStopCtxOf fsOneFile) 0 0 (-1) false true
      initState (by decide)⟩,
   ⟨rfl, C5_amended_depth_guard.2.1 winCtx 0 0 true initState rfl⟩,
   ⟨rfl, C5_amended_depth_guard.2.2 (noStopCtxOf fsOneFile) 0 0 initState rfl
      (fun _ => rfl) (by decide)⟩⟩

/-- Claim C6: starting from a fresh engine, every folder-cache record the scan
commits has a strictly positive size; in particular a directory whose listing
failed (and therefore computed 0) is never written. -/
theorem C6_cache_records_written_only_with_positive_size
    (ctx : ScanCtx) (fuel id : Nat) (md : Option Int) (uc fl : Bool) (p s : Nat)
    (h : (p, s) ∈ (get_folder_size_parallel ctx fuel id md uc fl initState).2.writes) :
    0 < s := by
  rcases scan_writes_positive ctx fuel id md uc fl initState p s h with h1 | h1
  · simp [initState] at h1
  · exact h1

/-- Witness for C6 at a concrete input: the completed scan of `fsTwoFiles`
commits the record `(0, 12)`, and 12 is positive. -/
theorem C6_cache_records_written_only_with_positive_size_witness :
    (0, 12) ∈ (get_folder_size_parallel (noStopCtxOf fsTwoFiles) 2 0 none true true
      initState).2.writes
    ∧ 0 < 12 :=
  ⟨by decide,
   C6_cache_records_written_only_with_positive_size (noStopCtxOf fsTwoFiles)
     2 0 none true true 0 12 (by decide)⟩

/-- Claim C7: the accelerator and the generic path disagree.  `scan_folder_win`
cuts one level earlier than the engine's generic recursion at the same
`max_depth` (it returns 0 on `fsDeep` at depth 1 where the generic path
returns 7), and it ignores the `scanned_inodes` set it is handed (on
`fsShared`, whose root lists the same directory identity twice, it counts the
4-byte subtree twice even with one extra depth level, where the generic path
counts it once).  Substituting one for the other therefore changes the
result. -/
theorem C7_accelerator_vs_generic_divergence :
    scan_folder_win fsDeep 1 0 = 0
    ∧ (get_folder_size_parallel (noStopCtxOf fsDeep) 3 0 (some 1) false true
        initState).1 = 7
    ∧ scan_folder_win fsShared 3 0 = 8
    ∧ (get_folder_size_parallel (noStopCtxOf fsShared) 4 0 (some 2) false true
        initState).1 = 4 := by
  decide

/-- Claim C8: the worker policy of `get_optimal_workers`, for every CPU count:
`min(cpu*4, 32)` for NVMe, `min(cpu*2, 16)` for SSD, always 2 for HDD, always
1 for network volumes, `min(cpu*2, 8)` for unknown media; at `cpu_count = 8`
an NVMe volume gets 32 workers. -/
theorem C8_optimal_workers_policy (cpu : Nat) :
    get_optimal_workers .nvme cpu = min (cpu * 4) 32
    ∧ get_optimal_workers .ssd cpu = min (cpu * 2) 16
    ∧ get_optimal_workers .hdd cpu = 2
    ∧ get_optimal_workers .network cpu = 1
    ∧ get_optimal_workers .unknown cpu = min (cpu * 2) 8
    ∧ get_optimal_workers .nvme 8 = 32 := by
  exact ⟨rfl, rfl, rfl, rfl, rfl, by decide⟩

/-- Claim C9, counterexample.  A non-system root folder of 2 MiB is marked
movable by the quick scan, although it is not above the 10 MiB threshold the
claim states: the root-level quick-scan threshold in the code is 1 MiB, not
10 MiB. -/
theorem C9_counterexample_quick_threshold_not_ten_mib :
    quick_movable false (2 * 1024 * 1024) = true
    ∧ ¬ (10 * 1024 * 1024 < 2 * 1024 * 1024) := by
  decide

/-- Claim C9, amended: a quick-scan root folder record is movable exactly when
it is not a system folder and is larger than 1 MiB, and an on-demand
subfolder record is movable exactly when it is larger than 1 MiB (the 10 MiB
constant exists only as a fallback in the UI layer, for records that carry no
`movable` field — which these records always do). -/
theorem C9_amended_movable_thresholds (is_system : Bool) (size sub_size : Nat) :
    (quick_movable is_system size = true
      ↔ (is_system = false ∧ 1 * 1024 * 1024 < size))
    ∧ (subfolder_movable sub_size = true ↔ 1 * 1024 * 1024 < sub_size) := by
  constructor
  · cases is_system <;> simp [quick_movable]
  · simp [subfolder_movable]

/-- Claim C10, counterexample.  A cached row whose recorded mtime is negative
(a pre-1970 timestamp, representable since the store keeps mtimes as signed
reals): the failed mtime read maps to 0, and `0 > -3` makes the row count as
modified, so the record is reported absent although it exists, its age (0) is
within the expiry window (10), and only the mtime read failed. -/
theorem C10_counterexample_negative_recorded_mtime :
    get_folder_cache (some ⟨5, -3, 0⟩) 0 10 none = none
    ∧ ¬ ((0 : Int) - 0 > 10) := by
  decide

/-- Claim C10, amended: when a row exists, its age is within the expiry
window, the current mtime read fails, and the *recorded mtime is
nonnegative*, `get_folder_cache` serves the cached `(size, mtime)` pair: the
failed read maps to 0, which is never newer than a nonnegative recorded
mtime.  (A negative recorded mtime instead makes the row count as modified.) -/
theorem C10_amended_failed_mtime_read_serves_cache (r : FolderRow)
    (now expireSeconds : Int) (hage : ¬ (now - r.cache_time > expireSeconds))
    (hm : 0 ≤ r.mtime) :
    get_folder_cache (some r) now expireSeconds none = some (r.size, r.mtime) := by
  simp only [get_folder_cache, folder_mtime_read, Option.getD, if_neg hage]
  rw [if_neg]
  omega

/-- Witness for the amended C10 at a concrete input. -/
theorem C10_amended_failed_mtime_read_serves_cache_witness :
    ¬ ((0 : Int) - 0 > 10) ∧ (0 : Int) ≤ 100 ∧
    get_folder_cache (some ⟨5, 100, 0⟩) 0 10 none = some (5, 100) :=
  ⟨by decide, by decide,
   C10_amended_failed_mtime_read_serves_cache ⟨5, 100, 0⟩ 0 10 (by decide) (by decide)⟩

/-! ### Set algebra for the DFS bookkeeping -/

/-- Splitting a difference along a chain `s ⊆ t ⊆ u`. -/
theorem sdiff_chain_union {s t u : Finset Nat} (h1 : s ⊆ t) (h2 : t ⊆ u) :
    u \ s = (u \ t) ∪ (t \ s) := by
  ext x
  simp only [Finset.mem_sdiff, Finset.mem_union]
  constructor
  · rintro ⟨hu, hs⟩
    by_cases ht : x ∈ t
    · exact Or.inr ⟨ht, hs⟩
    · exact Or.inl ⟨hu, ht⟩
  · rintro (⟨hu, ht⟩ | ⟨ht, hs⟩)
    · exact ⟨hu, fun hx => ht (h1 hx)⟩
    · exact ⟨h2 ht, hs⟩

/-- The two halves of the split are disjoint. -/
theorem sdiff_chain_disjoint {s t u : Finset Nat} : Disjoint (u \ t) (t \ s) := by
  rw [Finset.disjoint_left]
  intro x hx hy
  exact (Finset.mem_sdiff.mp hx).2 (Finset.mem_sdiff.mp hy).1

/-- Sums over a difference split along a chain. -/
theorem sum_sdiff_chain {s t u : Finset Nat} (f : Nat → Nat) (h1 : s ⊆ t) (h2 : t ⊆ u) :
    ∑ x in u \ s, f x = ∑ x in u \ t, f x + ∑ x in t \ s, f x := by
  rw [sdiff_chain_union h1 h2, Finset.sum_union sdiff_chain_disjoint]

/-- Cardinalities over a difference split along a chain. -/
theorem card_sdiff_chain {s t u : Finset Nat} (h1 : s ⊆ t) (h2 : t ⊆ u) :
    (u \ s).card = (u \ t).card + (t \ s).card := by
  rw [sdiff_chain_union h1 h2, Finset.card_union_of_disjoint sdiff_chain_disjoint]

/-- Inserting a new element and removing the old set leaves a singleton. -/
theorem insert_sdiff_self_of_not_mem {id : Nat} {vis : Finset Nat} (h : id ∉ vis) :
    insert id vis \ vis = {id} := by
  ext x
  simp only [Finset.mem_sdiff, Finset.mem_insert, Finset.mem_singleton]
  constructor
  · rintro ⟨hx | hx, hnx⟩
    · exact hx
    · exact absurd hx hnx
  · rintro rfl
    exact ⟨Or.inl rfl, h⟩

/-! ### DFS lemmas -/

/-- The child loop only grows the visited set, provided each child call does. -/
theorem dfsListWith_mono (f : Nat → Finset Nat → Nat → Nat × Finset Nat × Nat)
    (hf : ∀ c vis sk, vis ⊆ (f c vis sk).2.1) :
    ∀ (cs : List Nat) (acc : Nat) (vis : Finset Nat) (sk : Nat),
      vis ⊆ (dfsListWith f cs acc vis sk).2.1 := by
  intro cs
  induction cs with
  | nil => intro acc vis sk; simp [dfsListWith]
  | cons c rest ih =>
    intro acc vis sk
    exact (hf c vis sk).trans (ih _ _ _)

/-- `dfs` only grows the visited set. -/
theorem dfs_mono (fs : FileSystem) :
    ∀ (fuel id : Nat) (vis : Finset Nat) (sk : Nat),
      vis ⊆ (dfs fs fuel id vis sk).2.1 := by
  intro fuel
  induction fuel with
  | zero => intro id vis sk; simp [dfs]
  | succ f ih =>
    intro id vis sk
    by_cases h : id ∈ vis
    · simp [dfs, h]
    · rw [dfs]
      simp only [h, if_false]
      exact (Finset.subset_insert id vis).trans
        (dfsListWith_mono _ (fun c v s => ih c v s) _ _ _ _)

/-- A scanned directory ends up in the visited set (with at least one unit of
fuel: either it was there already, or it is inserted on entry). -/
theorem dfs_mem (fs : FileSystem) (fuel id : Nat) (vis : Finset Nat) (sk : Nat) :
    id ∈ (dfs fs (fuel + 1) id vis sk).2.1 := by
  by_cases h : id ∈ vis
  · simp [dfs, h]
  · rw [dfs]
    simp only [h, if_false]
    exact dfsListWith_mono _ (fun c v s => dfs_mono fs fuel c v s) _ _ _ _
      (Finset.mem_insert_self id vis)

/-- The size computed by the child loop is the accumulator plus the direct
file sums of all newly visited identities, provided each child call has this
shape. -/
theorem dfsListWith_sum (fs : FileSystem)
    (f : Nat → Finset Nat → Nat → Nat × Finset Nat × Nat)
    (hmono : ∀ c vis sk, vis ⊆ (f c vis sk).2.1)
    (hf : ∀ c vis sk, (f c vis sk).1 = ∑ x in (f c vis sk).2.1 \ vis, dirFileSum fs x) :
    ∀ (cs : List Nat) (acc : Nat) (vis : Finset Nat) (sk : Nat),
      (dfsListWith f cs acc vis sk).1
        = acc + ∑ x in (dfsListWith f cs acc vis sk).2.1 \ vis, dirFileSum fs x := by
  intro cs
  induction cs with
  | nil => intro acc vis sk; simp [dfsListWith]
  | cons c rest ih =>
    intro acc vis sk
    rw [dfsListWith]
    rw [ih (acc + (f c vis sk).1) (f c vis sk).2.1 (f c vis sk).2.2]
    have h1 : vis ⊆ (f c vis sk).2.1 := hmono c vis sk
    have h2 : (f c vis sk).2.1 ⊆
        (dfsListWith f rest (acc + (f c vis sk).1) (f c vis sk).2.1 (f c vis sk).2.2).2.1 :=
      dfsListWith_mono f hmono _ _ _ _
    rw [sum_sdiff_chain (dirFileSum fs) h1 h2]
    rw [hf c vis sk]
    omega

/-- The size computed by `dfs` is the sum of the direct file sums of the
newly visited identities: each reachable identity is counted exactly once. -/
theorem dfs_sum (fs : FileSystem) :
    ∀ (fuel id : Nat) (vis : Finset Nat) (sk : Nat),
      (dfs fs fuel id vis sk).1
        = ∑ x in (dfs fs fuel id vis sk).2.1 \ vis, dirFileSum fs x := by
  intro fuel
  induction fuel with
  | zero => intro id vis sk; simp [dfs]
  | succ f ih =>
    intro id vis sk
    by_cases h : id ∈ vis
    · simp [dfs, h]
    · rw [dfs]
      simp only [h, if_false]
      rw [dfsListWith_sum fs (fun c v s => dfs fs f c v s)
        (fun c v s => dfs_mono fs f c v s) (fun c v s => ih c v s)]
      have h1 : vis ⊆ insert id vis := Finset.subset_insert id vis
      have h2 : insert id vis ⊆
          (dfsListWith (fun c v s => dfs fs f c v s) (childIds fs id)
            (dirFileSum fs id) (insert id vis) sk).2.1 :=
        dfsListWith_mono _ (fun c v s => dfs_mono fs f c v s) _ _ _ _
      rw [sum_sdiff_chain (dirFileSum fs) h1 h2, insert_sdiff_self_of_not_mem h,
        Finset.sum_singleton]
      omega

/-! ### Well-formedness consequences -/

/-- `List.getD` yields the default or a member of the list. -/
theorem getD_mem_or {α : Type} (l : List α) (d : α) :
    ∀ i, l.getD i d = d ∨ l.getD i d ∈ l := by
  induction l with
  | nil => intro i; left; cases i <;> rfl
  | cons a t ih =>
    intro i
    cases i with
    | zero => right; simp
    | succ j =>
      rcases ih j with h | h
      · left; simpa using h
      · right; simp only [List.getD_cons_succ]; exact List.mem_cons_of_mem a h

/-- Membership in the collected subdirectory list is membership of a `dir`
entry in the listing. -/
theorem dirEntryIds_mem {l : List FSEntry} {c : Nat} :
    c ∈ dirEntryIds l ↔ FSEntry.dir c ∈ l := by
  induction l with
  | nil => simp [dirEntryIds]
  | cons e rest ih =>
    cases e with
    | file s => simp [dirEntryIds, ih]
    | dir d => simp [dirEntryIds, ih, FSEntry.dir.injEq, eq_comm]

/-- In a well-formed filesystem every subdirectory identity is inside the
model. -/
theorem wf_child_lt {fs : FileSystem} (hwf : fs.WF) {i c : Nat}
    (h : c ∈ childIds fs i) : c < fs.n := by
  have hd : FSEntry.dir c ∈ fs.entries i := dirEntryIds_mem.mp h
  rcases getD_mem_or fs.dirents none i with hg | hg
  · rw [FileSystem.entries, FileSystem.listing, hg] at hd
    simp at hd
  · have h1 := (List.all_eq_true.mp hwf) _ hg
    have h2 := (List.all_eq_true.mp h1) (FSEntry.dir c)
      (by rwa [FileSystem.entries, FileSystem.listing] at hd)
    simpa [FSEntry.wfb] using h2

/-- Removing a newly inserted element shrinks the complement by one. -/
theorem card_sdiff_insert_lt {n id : Nat} {vis : Finset Nat}
    (hid : id < n) (hvis : id ∉ vis) :
    (Finset.range n \ insert id vis).card + 1 = (Finset.range n \ vis).card := by
  rw [Finset.sdiff_insert, Finset.card_erase_of_mem
    (Finset.mem_sdiff.mpr ⟨Finset.mem_range.mpr hid, hvis⟩)]
  have hpos : 0 < (Finset.range n \ vis).card :=
    Finset.card_pos.mpr ⟨id, Finset.mem_sdiff.mpr ⟨Finset.mem_range.mpr hid, hvis⟩⟩
  omega

/-! ### The skipped-loop count -/

/-- The loop counter bookkeeping: with enough fuel, over any call the counter
grows by one more than the number of identities newly visited minus the
child-edges emanating from them.  (Every call is either a loop-skip or the
discovery of one new identity that spawns one call per child edge.) -/
theorem dfs_skip (fs : FileSystem) (hwf : fs.WF) :
    ∀ (fuel id : Nat) (vis : Finset Nat) (sk : Nat),
      id < fs.n → (Finset.range fs.n \ vis).card < fuel →
      (dfs fs fuel id vis sk).2.2 + ((dfs fs fuel id vis sk).2.1 \ vis).card
        = sk + 1 + ∑ x in (dfs fs fuel id vis sk).2.1 \ vis,
            (childIds fs x).length := by
  intro fuel
  induction fuel with
  | zero => intro id vis sk hid hcard; omega
  | succ f ih =>
    have hlist : ∀ (cs : List Nat), (∀ c ∈ cs, c < fs.n) →
        ∀ (acc : Nat) (vis : Finset Nat) (sk : Nat),
        (Finset.range fs.n \ vis).card < f →
        (dfsListWith (fun c v s => dfs fs f c v s) cs acc vis sk).2.2
          + ((dfsListWith (fun c v s => dfs fs f c v s) cs acc vis sk).2.1 \ vis).card
          = sk + cs.length
            + ∑ x in (dfsListWith (fun c v s => dfs fs f c v s) cs acc vis sk).2.1 \ vis,
                (childIds fs x).length := by
      intro cs
      induction cs with
      | nil => intro _ acc vis sk _; simp [dfsListWith]
      | cons c rest ihl =>
        intro hcs acc vis sk hcard
        rw [dfsListWith]
        have hc : c < fs.n := hcs c (List.mem_cons_self c rest)
        have hhead := ih c vis sk hc hcard
        have hcard2 : (Finset.range fs.n \ (dfs fs f c vis sk).2.1).card < f :=
          lt_of_le_of_lt (Finset.card_le_card
            (Finset.sdiff_subset_sdiff (Finset.Subset.refl _) (dfs_mono fs f c vis sk)))
            hcard
        have hrest := ihl (fun x hx => hcs x (List.mem_cons_of_mem c hx))
          (acc + (dfs fs f c vis sk).1) (dfs fs f c vis sk).2.1 (dfs fs f c vis sk).2.2
          hcard2
        have h1 : vis ⊆ (dfs fs f c vis sk).2.1 := dfs_mono fs f c vis sk
        have h2 : (dfs fs f c vis sk).2.1 ⊆
            (dfsListWith (fun c v s => dfs fs f c v s) rest
              (acc + (dfs fs f c vis sk).1) (dfs fs f c vis sk).2.1
              (dfs fs f c vis sk).2.2).2.1 :=
          dfsListWith_mono _ (fun c v s => dfs_mono fs f c v s) _ _ _ _
        rw [sum_sdiff_chain _ h1 h2, card_sdiff_chain h1 h2]
        simp only [List.length_cons]
        omega
    intro id vis sk hid hcard
    by_cases h : id ∈ vis
    · simp [dfs, h]
    · rw [dfs]
      simp only [h, if_false]
      have hins : (Finset.range fs.n \ insert id vis).card < f := by
        have := card_sdiff_insert_lt hid h (n := fs.n)
        omega
      have hcs : ∀ c ∈ childIds fs id, c < fs.n := fun c hc => wf_child_lt hwf hc
      have := hlist (childIds fs id) hcs (dirFileSum fs id) (insert id vis) sk hins
      have h1 : vis ⊆ insert id vis := Finset.subset_insert id vis
      have h2 : insert id vis ⊆
          (dfsListWith (fun c v s => dfs fs f c v s) (childIds fs id)
            (dirFileSum fs id) (insert id vis) sk).2.1 :=
        dfsListWith_mono _ (fun c v s => dfs_mono fs f c v s) _ _ _ _
      rw [sum_sdiff_chain _ h1 h2, card_sdiff_chain h1 h2,
        insert_sdiff_self_of_not_mem h, Finset.sum_singleton,
        Finset.card_singleton] at *
      omega

/-! ### Closure and reachability of the visited set -/

/-- With enough fuel, the set of visited identities is closed under child
edges at every newly visited identity, and every submitted child ends up
visited. -/
theorem dfs_closed (fs : FileSystem) (hwf : fs.WF) :
    ∀ (fuel id : Nat) (vis : Finset Nat) (sk : Nat),
      id < fs.n → (Finset.range fs.n \ vis).card < fuel →
      ∀ y, y ∈ (dfs fs fuel id vis sk).2.1 → y ∉ vis →
        ∀ c, c ∈ childIds fs y → c ∈ (dfs fs fuel id vis sk).2.1 := by
  intro fuel
  induction fuel with
  | zero => intro id vis sk hid hcard; omega
  | succ f ih =>
    have hlist : ∀ (cs : List Nat), (∀ c ∈ cs, c < fs.n) →
        ∀ (acc : Nat) (vis : Finset Nat) (sk : Nat),
        (Finset.range fs.n \ vis).card < f →
        (∀ c ∈ cs, c ∈ (dfsListWith (fun c v s => dfs fs f c v s) cs acc vis sk).2.1)
        ∧ (∀ y, y ∈ (dfsListWith (fun c v s => dfs fs f c v s) cs acc vis sk).2.1 →
            y ∉ vis → ∀ c, c ∈ childIds fs y →
            c ∈ (dfsListWith (fun c v s => dfs fs f c v s) cs acc vis sk).2.1) := by
      intro cs
      induction cs with
      | nil =>
        intro _ acc vis sk _
        refine ⟨by simp, ?_⟩
        intro y hy hny
        simp only [dfsListWith] at hy
        exact absurd hy hny
      | cons c rest ihl =>
        intro hcs acc vis sk hcard
        have hc : c < fs.n := hcs c (List.mem_cons_self c rest)
        have hcard2 : (Finset.range fs.n \ (dfs fs f c vis sk).2.1).card < f :=
          lt_of_le_of_lt (Finset.card_le_card
            (Finset.sdiff_subset_sdiff (Finset.Subset.refl _) (dfs_mono fs f c vis sk)))
            hcard
        obtain ⟨f', rfl⟩ : ∃ f', f = f' + 1 := by
          cases f with
          | zero => omega
          | succ f' => exact ⟨f', rfl⟩
        have hrest := ihl (fun x hx => hcs x (List.mem_cons_of_mem c hx))
          (acc + (dfs fs (f' + 1) c vis sk).1) (dfs fs (f' + 1) c vis sk).2.1
          (dfs fs (f' + 1) c vis sk).2.2 hcard2
        have hmonoRest : (dfs fs (f' + 1) c vis sk).2.1 ⊆
            (dfsListWith (fun c v s => dfs fs (f' + 1) c v s) rest
              (acc + (dfs fs (f' + 1) c vis sk).1) (dfs fs (f' + 1) c vis sk).2.1
              (dfs fs (f' + 1) c vis sk).2.2).2.1 :=
          dfsListWith_mono _ (fun c v s => dfs_mono fs (f' + 1) c v s) _ _ _ _
        constructor
        · intro x hx
          rcases List.mem_cons.mp hx with rfl | hx
          · rw [dfsListWith]
            exact hmonoRest (dfs_mem fs f' x vis sk)
          · rw [dfsListWith]
            exact hrest.1 x hx
        · intro y hy hny c' hc'
          rw [dfsListWith] at hy ⊢
          by_cases hyr : y ∈ (dfs fs (f' + 1) c vis sk).2.1
          · exact hmonoRest (ih c vis sk hc hcard y hyr hny c' hc')
          · exact hrest.2 y hy hyr c' hc'
    intro id vis sk hid hcard y hy hny c hc
    by_cases h : id ∈ vis
    · rw [dfs] at hy
      simp only [h, if_true] at hy
      exact absurd hy hny
    · rw [dfs] at hy ⊢
      simp only [h, if_false] at hy ⊢
      have hins : (Finset.range fs.n \ insert id vis).card < f := by
        have := card_sdiff_insert_lt hid h (n := fs.n)
        omega
      have hcs : ∀ x ∈ childIds fs id, x < fs.n := fun x hx => wf_child_lt hwf hx
      have hl := hlist (childIds fs id) hcs (dirFileSum fs id) (insert id vis) sk hins
      by_cases hyid : y = id
      · subst hyid
        exact hl.1 c hc
      · exact hl.2 y hy (by simp [Finset.mem_insert, hyid, hny]) c hc

/-- Every visited identity was already visited or is reachable from the
scanned root. -/
theorem dfs_reach (fs : FileSystem) :
    ∀ (fuel id : Nat) (vis : Finset Nat) (sk : Nat),
      ∀ x, x ∈ (dfs fs fuel id vis sk).2.1 → x ∈ vis ∨ Reaches fs id x := by
  intro fuel
  induction fuel with
  | zero => intro id vis sk x hx; simp [dfs] at hx; exact Or.inl hx
  | succ f ih =>
    have hlist : ∀ (cs : List Nat) (acc : Nat) (vis : Finset Nat) (sk : Nat),
        ∀ x, x ∈ (dfsListWith (fun c v s => dfs fs f c v s) cs acc vis sk).2.1 →
          x ∈ vis ∨ ∃ c ∈ cs, Reaches fs c x := by
      intro cs
      induction cs with
      | nil => intro acc vis sk x hx; simp only [dfsListWith] at hx; exact Or.inl hx
      | cons c rest ihl =>
        intro acc vis sk x hx
        rw [dfsListWith] at hx
        rcases ihl _ _ _ x hx with hx2 | ⟨c', hc', hr⟩
        · rcases ih c vis sk x hx2 with hx3 | hr
          · exact Or.inl hx3
          · exact Or.inr ⟨c, List.mem_cons_self c rest, hr⟩
        · exact Or.inr ⟨c', List.mem_cons_of_mem c hc', hr⟩
    intro id vis sk x hx
    by_cases h : id ∈ vis
    · rw [dfs] at hx
      simp only [h, if_true] at hx
      exact Or.inl hx
    · rw [dfs] at hx
      simp only [h, if_false] at hx
      rcases hlist _ _ _ _ x hx with hx2 | ⟨c, hc, hr⟩
      · rcases Finset.mem_insert.mp hx2 with rfl | hx3
        · exact Or.inr Relation.ReflTransGen.refl
        · exact Or.inl hx3
      · exact Or.inr (Relation.ReflTransGen.head hc hr)

/-- The entries of a directory whose listing raised. -/
theorem entries_eq_nil_of_listing_none {fs : FileSystem} {id : Nat}
    (h : fs.listing id = none) : fs.entries id = [] := by
  simp [FileSystem.entries, h]

/-! ### Bridge: the engine on the generic path is the DFS

With caching off (`use_cache = false`), link following on, an unbounded depth
(`max_depth = None`, so the accelerator is never consulted) and a stop flag
that is never set, `get_folder_size_parallel` computes exactly `dfs` on the
engine's visited set and loop counter, and commits no cache write. -/
theorem scan_dfs_bridge (ctx : ScanCtx) (hstop : ∀ t, ctx.stopAt t = false) :
    ∀ (fuel id : Nat) (st : ScanState),
      (get_folder_size_parallel ctx fuel id none false true st).1
        = (dfs ctx.fs fuel id st.visited st.skipped).1
      ∧ (get_folder_size_parallel ctx fuel id none false true st).2.visited
        = (dfs ctx.fs fuel id st.visited st.skipped).2.1
      ∧ (get_folder_size_parallel ctx fuel id none false true st).2.skipped
        = (dfs ctx.fs fuel id st.visited st.skipped).2.2
      ∧ (get_folder_size_parallel ctx fuel id none false true st).2.writes
        = st.writes := by
  intro fuel
  induction fuel with
  | zero => intro id st; simp [get_folder_size_parallel, dfs]
  | succ f ih =>
    have hlist : ∀ (subs : List Nat) (tot : Nat) (st : ScanState),
        (scanChildrenWith ctx
          (fun d s => get_folder_size_parallel ctx f d none false true s)
          subs tot st).1
          = (dfsListWith (fun c v s => dfs ctx.fs f c v s) subs tot
              st.visited st.skipped).1
        ∧ (scanChildrenWith ctx
            (fun d s => get_folder_size_parallel ctx f d none false true s)
            subs tot st).2.visited
          = (dfsListWith (fun c v s => dfs ctx.fs f c v s) subs tot
              st.visited st.skipped).2.1
        ∧ (scanChildrenWith ctx
            (fun d s => get_folder_size_parallel ctx f d none false true s)
            subs tot st).2.skipped
          = (dfsListWith (fun c v s => dfs ctx.fs f c v s) subs tot
              st.visited st.skipped).2.2
        ∧ (scanChildrenWith ctx
            (fun d s => get_folder_size_parallel ctx f d none false true s)
            subs tot st).2.writes = st.writes := by
      intro subs
      induction subs with
      | nil => intro tot st; simp [scanChildrenWith, dfsListWith]
      | cons d rest ihl =>
        intro tot st
        rw [scanChildrenWith, hstop]
        simp only [Bool.false_eq_true, if_false]
        rw [dfsListWith]
        have hhead := ih d (tick st)
        rw [show (tick st).visited = st.visited from rfl,
          show (tick st).skipped = st.skipped from rfl] at hhead
        rw [hhead.1]
        have hrest := ihl (tot + (dfs ctx.fs f d st.visited st.skipped).1)
          (get_folder_size_parallel ctx f d none false true (tick st)).2
        rw [hhead.2.1, hhead.2.2.1, hhead.2.2.2,
          show (tick st).writes = st.writes from rfl] at hrest
        exact hrest
    intro id st
    rw [get_folder_size_parallel, hstop]
    simp only [Bool.false_eq_true, if_false, Option.elim, Bool.and_false,
      if_false]
    by_cases h : id ∈ st.visited
    · rw [dfs]
      have : (true = true ∧ id ∈ (tick st).visited) := ⟨rfl, h⟩
      simp [this, h, tick]
    · rw [dfs]
      have hnot : ¬ (true = true ∧ id ∈ (tick st).visited) := by
        simp [tick, h]
      simp only [hnot, if_false, h, if_false]
      rcases hl : ctx.fs.listing id with _ | es
      · have hent := entries_eq_nil_of_listing_none hl
        simp [childIds, dirFileSum, hent, dfsListWith, fileEntrySum, tick, h]
      · have hent := entries_eq_of_listing hl
        simp only [cacheWriteStep, false_and, if_false]
        rw [listedPhase, entriesPhase_noStop ctx hstop]
        simp only [List.nil_append, Nat.zero_add]
        by_cases hde : (dirEntryIds es).isEmpty
        · have hde' : dirEntryIds es = [] := by
            rwa [List.isEmpty_iff] at hde
          simp only [hde, if_true]
          rw [childIds, dirFileSum, hent, hde', dfsListWith]
          simp [tick, h]
        · simp only [hde, Bool.false_eq_true, if_false]
          rw [hstop]
          simp only [Bool.false_eq_true, if_false, Option.map_none']
          have := hlist (dirEntryIds es) (fileEntrySum es)
            (tick { (if true then
                { tick st with visited := insert id (tick st).visited }
              else tick st) with
              clock := (if true then
                { tick st with visited := insert id (tick st).visited }
              else tick st).clock + es.length })
          rw [childIds, dirFileSum, hent]
          simpa [tick, h] using this

/-! ### Shortest-path machinery for the cycle argument -/

/-- Length-indexed reachability along directory entries. -/
inductive ReachN (fs : FileSystem) : Nat → Nat → Nat → Prop where
  | refl (a : Nat) : ReachN fs a a 0
  | tail {a b c k : Nat} (h : ReachN fs a b k) (hc : c ∈ childIds fs b) :
      ReachN fs a c (k + 1)

/-- Reachability is reachability in some number of steps. -/
theorem reaches_iff_reachN {fs : FileSystem} {a b : Nat} :
    Reaches fs a b ↔ ∃ k, ReachN fs a b k := by
  constructor
  · intro h
    induction h with
    | refl => exact ⟨0, ReachN.refl a⟩
    | tail h1 h2 ih =>
      rcases ih with ⟨k, hk⟩
      exact ⟨k + 1, ReachN.tail hk h2⟩
  · rintro ⟨k, hk⟩
    induction hk with
    | refl => exact Relation.ReflTransGen.refl
    | tail h1 hc ih => exact Relation.ReflTransGen.tail ih hc

/-- A reachable node is reached by a path of its shortest length. -/
theorem reachN_dist {fs : FileSystem} {root y : Nat} (h : Reaches fs root y) :
    ReachN fs root y (sInf {k | ReachN fs root y k}) :=
  Nat.sInf_mem (reaches_iff_reachN.mp h)

/-- Zero-step reachability is equality. -/
theorem reachN_zero {fs : FileSystem} {a b : Nat} (h : ReachN fs a b 0) : b = a := by
  cases h
  rfl

/-- When every reachable node has at most one reachable parent and the root
has none, a child is strictly farther from the root than its parent. -/
theorem dist_parent_lt {fs : FileSystem} {root q y : Nat}
    (huniq : ∀ z q1 q2, Reaches fs root q1 → Reaches fs root q2 →
      z ∈ childIds fs q1 → z ∈ childIds fs q2 → q1 = q2)
    (hroot0 : ∀ q, Reaches fs root q → root ∉ childIds fs q)
    (hq : Reaches fs root q) (hy : y ∈ childIds fs q) :
    sInf {k | ReachN fs root q k} < sInf {k | ReachN fs root y k} := by
  have hry : Reaches fs root y := Relation.ReflTransGen.tail hq hy
  have hmem := reachN_dist hry
  cases hcase : sInf {k | ReachN fs root y k} with
  | zero =>
    rw [hcase] at hmem
    have hyroot : y = root := reachN_zero hmem
    subst hyroot
    exact absurd hy (hroot0 q hq)
  | succ m =>
    rw [hcase] at hmem
    cases hmem with
    | tail hx hxy =>
      rename_i x
      have hrx : Reaches fs root x := reaches_iff_reachN.mpr ⟨m, hx⟩
      have hxq : x = q := huniq y x q hrx hq hxy hy
      rw [hxq] at hx
      have : sInf {k | ReachN fs root q k} ≤ m := Nat.sInf_le hx
      omega

/-- Distance from the root is monotone along entry-paths. -/
theorem dist_mono {fs : FileSystem} {root : Nat}
    (huniq : ∀ z q1 q2, Reaches fs root q1 → Reaches fs root q2 →
      z ∈ childIds fs q1 → z ∈ childIds fs q2 → q1 = q2)
    (hroot0 : ∀ q, Reaches fs root q → root ∉ childIds fs q)
    {a b : Nat} (ha : Reaches fs root a)
    (hab : Relation.ReflTransGen fs.Step a b) :
    sInf {k | ReachN fs root a k} ≤ sInf {k | ReachN fs root b k} := by
  induction hab with
  | refl => exact le_refl _
  | tail h1 h2 ih =>
    exact le_of_lt (lt_of_le_of_lt ih
      (dist_parent_lt huniq hroot0 (ha.trans h1) h2))

/-- With unique reachable parents and a parentless root there is no cycle
through any reachable node. -/
theorem no_reachable_cycle {fs : FileSystem} {root : Nat}
    (huniq : ∀ z q1 q2, Reaches fs root q1 → Reaches fs root q2 →
      z ∈ childIds fs q1 → z ∈ childIds fs q2 → q1 = q2)
    (hroot0 : ∀ q, Reaches fs root q → root ∉ childIds fs q)
    {c d : Nat} (hc : Reaches fs root c) (hd : d ∈ childIds fs c)
    (hdc : Relation.ReflTransGen fs.Step d c) : False := by
  have h1 := dist_parent_lt huniq hroot0 hc hd
  have h2 := dist_mono huniq hroot0 (Relation.ReflTransGen.tail hc hd) hdc
  omega

/-! ### Edge counting -/

/-- Occurrences of an identity in a child list. -/
def countOcc (y : Nat) : List Nat → Nat
  | [] => 0
  | a :: t => (if a = y then 1 else 0) + countOcc y t

/-- A member occurs at least once. -/
theorem countOcc_pos {y : Nat} {l : List Nat} (h : y ∈ l) : 1 ≤ countOcc y l := by
  induction l with
  | nil => cases h
  | cons a t ih =>
    rw [countOcc]
    rcases List.mem_cons.mp h with rfl | h2
    · simp
    · exact le_trans (ih h2) (Nat.le_add_left _ _)

/-- Summing the occurrence counts over any superset of the members recovers
the length. -/
theorem sum_countOcc_length (l : List Nat) (R : Finset Nat)
    (hsub : ∀ x ∈ l, x ∈ R) :
    ∑ y in R, countOcc y l = l.length := by
  induction l with
  | nil => simp [countOcc]
  | cons a t ih =>
    have ha : a ∈ R := hsub a (List.mem_cons_self a t)
    have ht := ih (fun x hx => hsub x (List.mem_cons_of_mem a hx))
    have hsplit : ∀ y ∈ R, countOcc y (a :: t)
        = (if a = y then 1 else 0) + countOcc y t := fun y _ => rfl
    rw [Finset.sum_congr rfl hsplit, Finset.sum_add_distrib, ht]
    have hone : ∑ y in R, (if a = y then 1 else 0) = 1 := by
      rw [Finset.sum_ite_eq R a (fun _ => 1)]
      simp [ha]
    rw [hone]
    simp [List.length_cons]
    omega

/-- If the number of identities a scan visits is one more than the number of
child edges among them, the visited region contains no cycle; contrapositive
of the skipped-loop count argument. -/
theorem cycle_forces_extra_edge (fs : FileSystem) (root : Nat) (R : Finset Nat)
    (hrootR : root ∈ R)
    (hmemR : ∀ x, x ∈ R ↔ Reaches fs root x)
    (hclosed : ∀ y ∈ R, ∀ c ∈ childIds fs y, c ∈ R)
    (hcyc : ∃ c, Reaches fs root c ∧ ∃ d, d ∈ childIds fs c ∧ Reaches fs d c) :
    R.card ≠ 1 + ∑ x in R, (childIds fs x).length := by
  intro hcount
  -- the edge total, counted by target
  have hE : ∑ x in R, (childIds fs x).length
      = ∑ y in R, ∑ q in R, countOcc y (childIds fs q) := by
    rw [Finset.sum_comm]
    exact Finset.sum_congr rfl fun q hq =>
      (sum_countOcc_length (childIds fs q) R (hclosed q hq)).symm
  -- every reachable non-root identity has an incoming edge from a reachable one
  have hin : ∀ y ∈ R.erase root, 1 ≤ ∑ q in R, countOcc y (childIds fs q) := by
    intro y hy
    have hyR := Finset.mem_of_mem_erase hy
    have hyne := Finset.ne_of_mem_erase hy
    rcases Relation.ReflTransGen.cases_tail ((hmemR y).mp hyR) with rfl | ⟨q, hq, hstep⟩
    · exact absurd rfl hyne
    · have hqR : q ∈ R := (hmemR q).mpr hq
      exact le_trans (countOcc_pos hstep)
        (Finset.single_le_sum (f := fun q => countOcc y (childIds fs q))
          (fun _ _ => Nat.zero_le _) hqR)
  have hsplit : (∑ q in R, countOcc root (childIds fs q))
      + ∑ y in R.erase root, ∑ q in R, countOcc y (childIds fs q)
      = ∑ y in R, ∑ q in R, countOcc y (childIds fs q) :=
    Finset.add_sum_erase R (fun y => ∑ q in R, countOcc y (childIds fs q)) hrootR
  have hcards : (R.erase root).card + 1 = R.card :=
    Finset.card_erase_add_one hrootR
  have hge : (R.erase root).card ≤ ∑ y in R.erase root, ∑ q in R, countOcc y (childIds fs q) := by
    rw [Finset.card_eq_sum_ones]
    exact Finset.sum_le_sum hin
  -- forcing: the root has no incoming edge and everything else exactly one
  have hroot_zero : (∑ q in R, countOcc root (childIds fs q)) = 0 ∧
      ∑ y in R.erase root, ∑ q in R, countOcc y (childIds fs q) = (R.erase root).card := by
    omega
  have hone : ∀ y ∈ R.erase root, ∑ q in R, countOcc y (childIds fs q) = 1 := by
    by_contra hcon
    push_neg at hcon
    rcases hcon with ⟨y0, hy0, hne⟩
    have h2 : (2 : Nat) ≤ ∑ q in R, countOcc y0 (childIds fs q) := by
      have := hin y0 hy0
      omega
    have : ∑ y in R.erase root, (1 : Nat)
        < ∑ y in R.erase root, ∑ q in R, countOcc y (childIds fs q) :=
      Finset.sum_lt_sum hin ⟨y0, hy0, by omega⟩
    rw [← Finset.card_eq_sum_ones] at this
    omega
  -- unique reachable parents
  have huniq : ∀ z q1 q2, Reaches fs root q1 → Reaches fs root q2 →
      z ∈ childIds fs q1 → z ∈ childIds fs q2 → q1 = q2 := by
    intro z q1 q2 hr1 hr2 hz1 hz2
    by_contra hne
    have hq1R : q1 ∈ R := (hmemR q1).mpr hr1
    have hq2R : q2 ∈ R := (hmemR q2).mpr hr2
    have hzR : z ∈ R := hclosed q1 hq1R z hz1
    have hzroot : z ≠ root := by
      rintro rfl
      have h1 : countOcc z (childIds fs q1) ≤ ∑ q in R, countOcc z (childIds fs q) :=
        Finset.single_le_sum (f := fun q => countOcc z (childIds fs q))
          (fun _ _ => Nat.zero_le _) hq1R
      have h2 := countOcc_pos hz1
      omega
    have hz_one := hone z (Finset.mem_erase.mpr ⟨hzroot, hzR⟩)
    have hq2e : q2 ∈ R.erase q1 := Finset.mem_erase.mpr ⟨fun h => hne h.symm, hq2R⟩
    have hsum2 : countOcc z (childIds fs q1) + countOcc z (childIds fs q2)
        ≤ ∑ q in R, countOcc z (childIds fs q) := by
      rw [← Finset.add_sum_erase R _ hq1R]
      have : countOcc z (childIds fs q2)
          ≤ ∑ q in R.erase q1, countOcc z (childIds fs q) :=
        Finset.single_le_sum (f := fun q => countOcc z (childIds fs q))
          (fun _ _ => Nat.zero_le _) hq2e
      omega
    have hc1 := countOcc_pos hz1
    have hc2 := countOcc_pos hz2
    omega
  -- the root has no reachable parent
  have hroot0 : ∀ q, Reaches fs root q → root ∉ childIds fs q := by
    intro q hq hmem
    have hqR : q ∈ R := (hmemR q).mpr hq
    have h1 : countOcc root (childIds fs q) ≤ ∑ q in R, countOcc root (childIds fs q) :=
      Finset.single_le_sum (f := fun q => countOcc root (childIds fs q))
        (fun _ _ => Nat.zero_le _) hqR
    have h2 := countOcc_pos hmem
    omega
  rcases hcyc with ⟨c, hc, d, hd, hdc⟩
  exact no_reachable_cycle huniq hroot0 hc hd hdc

/-! ### The generic scan, characterised -/

/-- The full behaviour of the generic path of `get_folder_size_parallel` on a
fresh engine with caching off, link following on, an unbounded depth and an
unset stop flag: there is a set `S` — the identities reachable from the
root — such that, for every sufficient fuel, the returned total is the sum of
the direct file sizes over `S` (each identity counted once), the root is in
`S`, `S` is closed under child edges, and the skipped-loop counter ends at
`1 + (edges within S) - |S|`. -/
theorem generic_scan_spec (fs : FileSystem) (hw : Bool) (c0 : Nat → Option Nat)
    (root : Nat) (hwf : fs.WF) (hroot : root < fs.n) :
    ∃ S : Finset Nat,
      (∀ x, x ∈ S ↔ Reaches fs root x)
      ∧ root ∈ S
      ∧ (∀ y ∈ S, ∀ c ∈ childIds fs y, c ∈ S)
      ∧ ∀ fuel, fs.n < fuel →
          (get_folder_size_parallel ⟨fs, hw, fun _ => false, c0⟩ fuel root none
            false true initState).1 = ∑ x in S, dirFileSum fs x
          ∧ (get_folder_size_parallel ⟨fs, hw, fun _ => false, c0⟩ fuel root none
              false true initState).2.skipped + S.card
            = 1 + ∑ x in S, (childIds fs x).length := by
  have hstop : ∀ t, (⟨fs, hw, fun _ => false, c0⟩ : ScanCtx).stopAt t = false :=
    fun t => rfl
  have hcard : ∀ fuel, fs.n < fuel → (Finset.range fs.n \ (∅ : Finset Nat)).card < fuel := by
    intro fuel hfuel
    simpa using hfuel
  have hmem : ∀ fuel, fs.n < fuel → ∀ x,
      x ∈ (dfs fs fuel root ∅ 0).2.1 ↔ Reaches fs root x := by
    intro fuel hfuel x
    constructor
    · intro hx
      rcases dfs_reach fs fuel root ∅ 0 x hx with h | h
      · exact absurd h (Finset.not_mem_empty x)
      · exact h
    · intro hx
      induction hx with
      | refl =>
        obtain ⟨f', rfl⟩ : ∃ f', fuel = f' + 1 := ⟨fuel - 1, by omega⟩
        exact dfs_mem fs f' root ∅ 0
      | tail h1 h2 ihx =>
        exact dfs_closed fs hwf fuel root ∅ 0 hroot (hcard fuel hfuel) _ ihx
          (Finset.not_mem_empty _) _ h2
  have hSeq : ∀ fuel, fs.n < fuel →
      (dfs fs fuel root ∅ 0).2.1 = (dfs fs (fs.n + 1) root ∅ 0).2.1 := by
    intro fuel hfuel
    exact Finset.ext fun x => by
      rw [hmem fuel hfuel x, hmem (fs.n + 1) (by omega) x]
  refine ⟨(dfs fs (fs.n + 1) root ∅ 0).2.1, hmem (fs.n + 1) (by omega), ?_, ?_, ?_⟩
  · exact dfs_mem fs fs.n root ∅ 0
  · intro y hy c hc
    exact dfs_closed fs hwf (fs.n + 1) root ∅ 0 hroot (hcard _ (by omega)) y hy
      (Finset.not_mem_empty _) c hc
  · intro fuel hfuel
    have hb := scan_dfs_bridge ⟨fs, hw, fun _ => false, c0⟩ hstop fuel root initState
    constructor
    · rw [show (get_folder_size_parallel ⟨fs, hw, fun _ => false, c0⟩ fuel root none
          false true initState).1
          = (dfs fs fuel root ∅ 0).1 from hb.1]
      rw [dfs_sum fs fuel root ∅ 0, Finset.sdiff_empty, hSeq fuel hfuel]
    · rw [show (get_folder_size_parallel ⟨fs, hw, fun _ => false, c0⟩ fuel root none
          false true initState).2.skipped
          = (dfs fs fuel root ∅ 0).2.2 from hb.2.2.1]
      have hskip := dfs_skip fs hwf fuel root ∅ 0 hroot (hcard fuel hfuel)
      rw [Finset.sdiff_empty, hSeq fuel hfuel] at hskip
      omega

/-- Claim C1: on a fresh engine (empty visited set, no usable cache) with
`use_cache = false` and `follow_symlinks = true`, and an unbounded depth,
`get_folder_size_parallel` returns exactly the sum of the sizes of the
regular files of every directory identity reachable from the root, each
identity counted once even when several paths (links) lead to it. -/
theorem C1_scan_counts_each_reachable_identity_once (fs : FileSystem)
    (hw : Bool) (c0 : Nat → Option Nat) (root : Nat)
    (hwf : fs.WF) (hroot : root < fs.n) :
    ∃ S : Finset Nat,
      (∀ x, x ∈ S ↔ Reaches fs root x)
      ∧ ∀ fuel, fs.n < fuel →
          (get_folder_size_parallel ⟨fs, hw, fun _ => false, c0⟩ fuel root none
            false true initState).1 = ∑ x in S, dirFileSum fs x := by
  rcases generic_scan_spec fs hw c0 root hwf hroot with ⟨S, hS1, _, _, hS4⟩
  exact ⟨S, hS1, fun fuel hfuel => (hS4 fuel hfuel).1⟩

/-- A diamond-shaped filesystem: the root holds a 10-byte file and two
subdirectories that both link to the same directory 3, which holds a 7-byte
file.  The scan counts directory 3 once: total 17. -/
def fsDiamond : FileSystem :=
  ⟨[some [.dir 1, .dir 2, .file 10], some [.dir 3], some [.dir 3], some [.file 7]]⟩

/-- Witness for C1 at a concrete input. -/
theorem C1_scan_counts_each_reachable_identity_once_witness :
    fsDiamond.WF ∧ 0 < fsDiamond.n ∧
    (∃ S : Finset Nat,
      (∀ x, x ∈ S ↔ Reaches fsDiamond 0 x)
      ∧ ∀ fuel, fsDiamond.n < fuel →
          (get_folder_size_parallel ⟨fsDiamond, false, fun _ => false, fun _ => none⟩
            fuel 0 none false true initState).1 = ∑ x in S, dirFileSum fsDiamond x) :=
  ⟨rfl, by decide,
   C1_scan_counts_each_reachable_identity_once fsDiamond false (fun _ => none) 0
     rfl (by decide)⟩

/-- Claim C2: scanning a tree that contains a self-referential link (a
directory reachable from itself through one of its entries) with
`follow_symlinks = true` terminates — for every sufficient fuel the result is
the same fuel-independent value — the skipped-loop counter ends positive, and
the returned total counts every reachable identity at most once. -/
theorem C2_cycle_scan_terminates_skips_and_counts_once (fs : FileSystem)
    (hw : Bool) (c0 : Nat → Option Nat) (root : Nat)
    (hwf : fs.WF) (hroot : root < fs.n)
    (hcyc : ∃ c, Reaches fs root c ∧ ∃ d, d ∈ childIds fs c ∧ Reaches fs d c) :
    ∃ S : Finset Nat,
      (∀ x, x ∈ S ↔ Reaches fs root x)
      ∧ ∀ fuel, fs.n < fuel →
          (get_folder_size_parallel ⟨fs, hw, fun _ => false, c0⟩ fuel root none
            false true initState).1 = ∑ x in S, dirFileSum fs x
          ∧ 0 < (get_folder_size_parallel ⟨fs, hw, fun _ => false, c0⟩ fuel root
              none false true initState).2.skipped := by
  rcases generic_scan_spec fs hw c0 root hwf hroot with ⟨S, hS1, hS2, hS3, hS4⟩
  have hforce := cycle_forces_extra_edge fs root S hS2 hS1 hS3 hcyc
  refine ⟨S, hS1, fun fuel hfuel => ⟨(hS4 fuel hfuel).1, ?_⟩⟩
  have := (hS4 fuel hfuel).2
  omega

/-- A self-referential tree: the root's subdirectory 1 links back to the root
and holds a 3-byte file. -/
def fsCycle : FileSystem := ⟨[some [.dir 1], some [.dir 0, .file 3]]⟩

/-- Witness for C2 at a concrete input. -/
theorem C2_cycle_scan_terminates_skips_and_counts_once_witness :
    fsCycle.WF ∧ 0 < fsCycle.n ∧
    (∃ c, Reaches fsCycle 0 c ∧ ∃ d, d ∈ childIds fsCycle c ∧ Reaches fsCycle d c) ∧
    (∃ S : Finset Nat,
      (∀ x, x ∈ S ↔ Reaches fsCycle 0 x)
      ∧ ∀ fuel, fsCycle.n < fuel →
          (get_folder_size_parallel ⟨fsCycle, false, fun _ => false, fun _ => none⟩
            fuel 0 none false true initState).1 = ∑ x in S, dirFileSum fsCycle x
          ∧ 0 < (get_folder_size_parallel ⟨fsCycle, false, fun _ => false, fun _ => none⟩
              fuel 0 none false true initState).2.skipped) :=
  ⟨rfl, by decide,
   ⟨0, Relation.ReflTransGen.refl, 1, by decide,
    Relation.ReflTransGen.single
      (show fsCycle.Step 1 0 from (by decide : (0 : Nat) ∈ childIds fsCycle 1))⟩,
   C2_cycle_scan_terminates_skips_and_counts_once fsCycle false (fun _ => none) 0
     rfl (by decide)
     ⟨0, Relation.ReflTransGen.refl, 1, by decide,
      Relation.ReflTransGen.single
        (show fsCycle.Step 1 0 from (by decide : (0 : Nat) ∈ childIds fsCycle 1))⟩⟩

end WinDiskTool
